import Mathlib

/-!
# Verification of the `bloom_filter_rs` Bloom filter

Shallow embedding of `src/main.rs` (`struct BloomFilter` and its methods).

Modelling conventions:
* `f64` arithmetic in the parameter calculator (`f64::ln`, `f64::ceil`,
  division) is modelled by exact real arithmetic over `ℝ`; the Rust
  saturating cast `as usize` applied to a (finite, integer-valued) result
  of `f64::ceil` is modelled by `Int.toNat` on `Int.ceil` (negative values
  clamp to `0`, as the Rust cast does).
* A `DefaultHasher` produced by `RandomState::new().build_hasher()` is a
  fixed seeded hash state; `add`/`contains` clone it, feed it the data and
  call `finish`, so per call it acts as a pure function of the data.  We
  model the `i`-th hasher as an arbitrary function `seed i : α → ℕ`
  (the `u64` digest cast `as usize`; the cast is the identity on 64-bit
  targets, and only the value modulo `vector_len` is ever used).  The
  ambient randomness of `RandomState` is modelled by quantifying over the
  `seed` family.
* Rust panics (`%` by zero, out-of-bounds indexing) are modelled by
  `Option`/`none`; `&mut self` methods are modelled by returning the new
  state (for `contains`, which writes nothing, a state-passing variant
  `containsMut` mirrors the `&mut self` signature).
-/

namespace BloomRs

/-- `fn get_optimal_num_hashes(prob_fp: f64) -> usize`:
`ceil(-(ln(prob_fp)/ln(2))) as usize`, with `f64` modelled by `ℝ`. -/
noncomputable def get_optimal_num_hashes (prob_fp : ℝ) : ℕ :=
  (⌈-(Real.log prob_fp / Real.log 2)⌉).toNat

/-- `fn get_optimal_vector_len(prob_fp: f64, data_set_size: usize) -> usize`:
`ceil(-((data_set_size as f64) * ln(prob_fp) / ln(2)^2)) as usize`,
with `f64` modelled by `ℝ`. -/
noncomputable def get_optimal_vector_len (prob_fp : ℝ) (data_set_size : ℕ) : ℕ :=
  (⌈-((data_set_size : ℝ) * Real.log prob_fp / (Real.log 2) ^ 2)⌉).toNat

/-- `struct BloomFilter`.  `bitvec : Vec<bool>` becomes `List Bool`;
`hash_funcs : Vec<DefaultHasher>` becomes a list of digest functions. -/
structure BloomFilter (α : Type) where
  prob_fp : ℝ
  data_set_size : ℕ
  vector_len : ℕ
  num_hashers : ℕ
  bitvec : List Bool
  hash_funcs : List (α → ℕ)

/-- `fn random_hashers(num_hashers: usize) -> Vec<DefaultHasher>`: builds
`num_hashers` independently seeded hashers; the random seeding is the
ambient family `seed`. -/
def random_hashers {α : Type} (seed : ℕ → α → ℕ) (num_hashers : ℕ) :
    List (α → ℕ) :=
  (List.range num_hashers).map seed

/-- `fn new(prob_fp: f64, data_set_size: usize) -> Self`.  Note: the source
performs no validation of `prob_fp`; it unconditionally builds the struct. -/
noncomputable def BloomFilter.new {α : Type} (seed : ℕ → α → ℕ)
    (prob_fp : ℝ) (data_set_size : ℕ) : BloomFilter α :=
  let optimal_vector_len := get_optimal_vector_len prob_fp data_set_size
  let optimal_num_hashes := get_optimal_num_hashes prob_fp
  { prob_fp := prob_fp
    data_set_size := data_set_size
    vector_len := optimal_vector_len
    num_hashers := optimal_num_hashes
    bitvec := List.replicate optimal_vector_len false
    hash_funcs := random_hashers seed optimal_num_hashes }

/-- `self.bitvec[index] = true`: panics (`none`) when `index` is out of
bounds, otherwise sets the cell. -/
def setBit (bv : List Bool) (index : ℕ) : Option (List Bool) :=
  if index < bv.length then some (bv.set index true) else none

/-- The loop body of `add`, iterated over the hasher indices `0..num_hashers`.
Each step: `hash_funcs[i]` (panic when out of bounds), digest the data,
`hash_val % vector_len` (panic when `vector_len = 0`), set the bit. -/
def addIndices {α : Type} (hash_funcs : List (α → ℕ)) (vector_len : ℕ)
    (data : α) : List ℕ → List Bool → Option (List Bool)
  | [], bv => some bv
  | i :: rest, bv =>
    match hash_funcs.get? i with
    | none => none
    | some hasher =>
      if vector_len = 0 then none
      else
        match setBit bv (hasher data % vector_len) with
        | none => none
        | some bv2 => addIndices hash_funcs vector_len data rest bv2

/-- `fn add<T: Hash>(&mut self, data: T)`: the mutated filter, or `none`
on a panic. -/
def BloomFilter.add {α : Type} (self : BloomFilter α) (data : α) :
    Option (BloomFilter α) :=
  (addIndices self.hash_funcs self.vector_len data
      (List.range self.num_hashers) self.bitvec).map
    (fun bv => { self with bitvec := bv })

/-- The loop body of `contains`, iterated over the hasher indices
`0..num_hashers`: digest, reduce mod `vector_len`, read the cell
(`if self.bitvec[index] != true { return false }`). -/
def containsIndices {α : Type} (hash_funcs : List (α → ℕ)) (vector_len : ℕ)
    (bv : List Bool) (data : α) : List ℕ → Option Bool
  | [] => some true
  | i :: rest =>
    match hash_funcs.get? i with
    | none => none
    | some hasher =>
      if vector_len = 0 then none
      else
        match bv.get? (hasher data % vector_len) with
        | none => none
        | some b =>
          if b ≠ true then some false
          else containsIndices hash_funcs vector_len bv data rest

/-- `fn contains<T: Hash>(&mut self, data: T) -> bool`: result value only
(`none` on a panic). -/
def BloomFilter.contains {α : Type} (self : BloomFilter α) (data : α) :
    Option Bool :=
  containsIndices self.hash_funcs self.vector_len self.bitvec data
    (List.range self.num_hashers)

/-- The `contains` loop with the `&mut self` state threaded through
explicitly, mirroring that the source body performs no writes. -/
def containsMutIndices {α : Type} (data : α) :
    List ℕ → BloomFilter α → Option Bool × BloomFilter α
  | [], self => (some true, self)
  | i :: rest, self =>
    match self.hash_funcs.get? i with
    | none => (none, self)
    | some hasher =>
      if self.vector_len = 0 then (none, self)
      else
        match self.bitvec.get? (hasher data % self.vector_len) with
        | none => (none, self)
        | some b =>
          if b ≠ true then (some false, self)
          else containsMutIndices data rest self

/-- `contains` as a state transformer on `&mut self`. -/
def BloomFilter.containsMut {α : Type} (self : BloomFilter α) (data : α) :
    Option Bool × BloomFilter α :=
  containsMutIndices data (List.range self.num_hashers) self

/-- An operation performed on a filter after construction. -/
inductive Op (α : Type) where
  | add (data : α)
  | contains (data : α)

/-- Run a sequence of `add`/`contains` calls on a filter; `none` as soon
as one of them panics. -/
def runOps {α : Type} : List (Op α) → BloomFilter α → Option (BloomFilter α)
  | [], bf => some bf
  | Op.add d :: rest, bf =>
    match bf.add d with
    | none => none
    | some bf2 => runOps rest bf2
  | Op.contains d :: rest, bf =>
    match bf.containsMut d with
    | (none, _) => none
    | (some _, bf2) => runOps rest bf2

/-! ## Basic lemmas about the embedding -/

theorem setBit_eq {bv bv' : List Bool} {i : ℕ} (h : setBit bv i = some bv') :
    i < bv.length ∧ bv' = bv.set i true := by
  by_cases hi : i < bv.length
  · refine ⟨hi, ?_⟩
    simpa [setBit, hi] using h.symm
  · simp [setBit, hi] at h

theorem setBit_get? {bv bv' : List Bool} {i : ℕ} (h : setBit bv i = some bv')
    (j : ℕ) : bv'.get? j = if j = i then some true else bv.get? j := by
  obtain ⟨hi, rfl⟩ := setBit_eq h
  by_cases hj : j = i
  · subst hj
    simp [List.get?_eq_getElem?, List.getElem?_set_self, hi, List.getElem?_eq_getElem]
  · simp [List.get?_eq_getElem?, List.getElem?_set_ne (Ne.symm hj), hj]

theorem addIndices_nil {α : Type} (hash_funcs : List (α → ℕ)) (vector_len : ℕ)
    (data : α) (bv : List Bool) :
    addIndices hash_funcs vector_len data [] bv = some bv := rfl

theorem addIndices_cons_eq {α : Type} {hash_funcs : List (α → ℕ)}
    {vector_len : ℕ} {data : α} {i : ℕ} {rest : List ℕ} {bv bv' : List Bool}
    (h : addIndices hash_funcs vector_len data (i :: rest) bv = some bv') :
    ∃ hasher bv2, hash_funcs.get? i = some hasher ∧ vector_len ≠ 0 ∧
      setBit bv (hasher data % vector_len) = some bv2 ∧
      addIndices hash_funcs vector_len data rest bv2 = some bv' := by
  simp only [addIndices] at h
  split at h
  · cases h
  next hasher heq =>
    split at h
    · cases h
    next hv =>
      split at h
      · cases h
      next bv2 hs => exact ⟨hasher, bv2, heq, hv, hs, h⟩

theorem addIndices_length {α : Type} {hash_funcs : List (α → ℕ)}
    {vector_len : ℕ} {data : α} :
    ∀ {L : List ℕ} {bv bv' : List Bool},
      addIndices hash_funcs vector_len data L bv = some bv' →
      bv'.length = bv.length := by
  intro L
  induction L with
  | nil =>
    intro bv bv' h
    cases h
    rfl
  | cons i rest ih =>
    intro bv bv' h
    obtain ⟨hasher, bv2, _, _, hs, hrec⟩ := addIndices_cons_eq h
    rw [ih hrec, (setBit_eq hs).2, List.length_set]

theorem addIndices_mono {α : Type} {hash_funcs : List (α → ℕ)}
    {vector_len : ℕ} {data : α} :
    ∀ {L : List ℕ} {bv bv' : List Bool},
      addIndices hash_funcs vector_len data L bv = some bv' →
      ∀ j, bv.get? j = some true → bv'.get? j = some true := by
  intro L
  induction L with
  | nil =>
    intro bv bv' h j hj
    cases h
    exact hj
  | cons i rest ih =>
    intro bv bv' h j hj
    obtain ⟨hasher, bv2, _, _, hs, hrec⟩ := addIndices_cons_eq h
    refine ih hrec j ?_
    rw [setBit_get? hs j]
    by_cases hji : j = hasher data % vector_len
    · rw [if_pos hji]
    · rw [if_neg hji]
      exact hj

theorem addIndices_sets {α : Type} {hash_funcs : List (α → ℕ)}
    {vector_len : ℕ} {data : α} :
    ∀ {L : List ℕ} {bv bv' : List Bool},
      addIndices hash_funcs vector_len data L bv = some bv' →
      ∀ i ∈ L, ∃ hasher, hash_funcs.get? i = some hasher ∧ vector_len ≠ 0 ∧
        hasher data % vector_len < bv.length ∧
        bv'.get? (hasher data % vector_len) = some true := by
  intro L
  induction L with
  | nil =>
    intro bv bv' _ i hi
    cases hi
  | cons i0 rest ih =>
    intro bv bv' h i hi
    obtain ⟨hasher, bv2, hg, hv, hs, hrec⟩ := addIndices_cons_eq h
    rcases List.mem_cons.mp hi with hrfl | hmem
    · subst hrfl
      refine ⟨hasher, hg, hv, (setBit_eq hs).1, ?_⟩
      refine addIndices_mono hrec _ ?_
      rw [setBit_get? hs]
      simp
    · obtain ⟨hasher', hg', hv', hlt', htrue'⟩ := ih hrec i hmem
      refine ⟨hasher', hg', hv', ?_, htrue'⟩
      have : bv2.length = bv.length := by
        rw [(setBit_eq hs).2, List.length_set]
      omega

theorem addIndices_total {α : Type} {hash_funcs : List (α → ℕ)}
    {vector_len : ℕ} (data : α) (hv : vector_len ≠ 0) :
    ∀ {L : List ℕ} (bv : List Bool), bv.length = vector_len →
      (∀ i ∈ L, i < hash_funcs.length) →
      ∃ bv', addIndices hash_funcs vector_len data L bv = some bv' := by
  intro L
  induction L with
  | nil =>
    intro bv _ _
    exact ⟨bv, rfl⟩
  | cons i rest ih =>
    intro bv hbv hL
    have hi : i < hash_funcs.length := hL i (List.mem_cons_self i rest)
    obtain ⟨hasher, hg⟩ : ∃ hasher, hash_funcs.get? i = some hasher := by
      simp [List.get?_eq_getElem?, List.getElem?_eq_getElem, hi]
    have hidx : hasher data % vector_len < bv.length := by
      rw [hbv]
      exact Nat.mod_lt _ (Nat.pos_of_ne_zero hv)
    have hs : setBit bv (hasher data % vector_len) =
        some (bv.set (hasher data % vector_len) true) := by
      simp [setBit, hidx]
    obtain ⟨bv', hbv'⟩ :=
      ih (bv.set (hasher data % vector_len) true)
        (by rw [List.length_set, hbv])
        (fun j hj => hL j (List.mem_cons_of_mem i hj))
    refine ⟨bv', ?_⟩
    simp only [addIndices, hg, if_neg hv, hs]
    exact hbv'

theorem containsIndices_eq_true {α : Type} {hash_funcs : List (α → ℕ)}
    {vector_len : ℕ} {bv : List Bool} {data : α} :
    ∀ {L : List ℕ},
      (∀ i ∈ L, ∃ hasher, hash_funcs.get? i = some hasher ∧ vector_len ≠ 0 ∧
        bv.get? (hasher data % vector_len) = some true) →
      containsIndices hash_funcs vector_len bv data L = some true := by
  intro L
  induction L with
  | nil => intro _; rfl
  | cons i rest ih =>
    intro hL
    obtain ⟨hasher, hg, hv, hb⟩ := hL i (List.mem_cons_self i rest)
    simp only [containsIndices, hg, if_neg hv, hb]
    rw [if_neg (by simp)]
    exact ih (fun j hj => hL j (List.mem_cons_of_mem i hj))

theorem containsIndices_total {α : Type} {hash_funcs : List (α → ℕ)}
    {vector_len : ℕ} {bv : List Bool} (data : α) (hv : vector_len ≠ 0)
    (hbv : bv.length = vector_len) :
    ∀ {L : List ℕ}, (∀ i ∈ L, i < hash_funcs.length) →
      ∃ b, containsIndices hash_funcs vector_len bv data L = some b := by
  intro L
  induction L with
  | nil => intro _; exact ⟨true, rfl⟩
  | cons i rest ih =>
    intro hL
    have hi : i < hash_funcs.length := hL i (List.mem_cons_self i rest)
    obtain ⟨hasher, hg⟩ : ∃ hasher, hash_funcs.get? i = some hasher := by
      simp [List.get?_eq_getElem?, List.getElem?_eq_getElem, hi]
    have hidx : hasher data % vector_len < bv.length := by
      rw [hbv]
      exact Nat.mod_lt _ (Nat.pos_of_ne_zero hv)
    obtain ⟨b, hb⟩ : ∃ b, bv.get? (hasher data % vector_len) = some b := by
      simp [List.get?_eq_getElem?, List.getElem?_eq_getElem, hidx]
    cases b with
    | false =>
      refine ⟨false, ?_⟩
      simp only [containsIndices, hg, if_neg hv, hb]
      rw [if_pos (by simp)]
    | true =>
      obtain ⟨r, hr⟩ := ih (fun j hj => hL j (List.mem_cons_of_mem i hj))
      refine ⟨r, ?_⟩
      simp only [containsIndices, hg, if_neg hv, hb]
      rw [if_neg (by simp)]
      exact hr

theorem containsMutIndices_snd {α : Type} (data : α) :
    ∀ (L : List ℕ) (self : BloomFilter α),
      (containsMutIndices data L self).2 = self := by
  intro L
  induction L with
  | nil => intro self; rfl
  | cons i rest ih =>
    intro self
    simp only [containsMutIndices]
    split
    · rfl
    next hasher _ =>
      split
      · rfl
      · split
        · rfl
        next b _ =>
          split
          · rfl
          · exact ih self

theorem containsMutIndices_fst {α : Type} (data : α) :
    ∀ (L : List ℕ) (self : BloomFilter α),
      (containsMutIndices data L self).1 =
        containsIndices self.hash_funcs self.vector_len self.bitvec data L := by
  intro L
  induction L with
  | nil => intro self; rfl
  | cons i rest ih =>
    intro self
    simp only [containsMutIndices, containsIndices]
    split
    · rfl
    next hasher _ =>
      split
      · rfl
      · split
        · rfl
        next b _ =>
          split
          · rfl
          · exact ih self

/-- Modelled from the spec: the non-short-circuiting reference version of the
`contains` loop, which tests all `hashCount` indices, then returns the
conjunction of the tested cell values
("the non-short-circuiting reference definition that tests all hashCount
indices and returns the conjunction of their cell values"). -/
def containsAllIndices {α : Type} (hash_funcs : List (α → ℕ)) (vector_len : ℕ)
    (bv : List Bool) (data : α) : List ℕ → Option Bool
  | [] => some true
  | i :: rest =>
    match hash_funcs.get? i with
    | none => none
    | some hasher =>
      if vector_len = 0 then none
      else
        match bv.get? (hasher data % vector_len) with
        | none => none
        | some b =>
          match containsAllIndices hash_funcs vector_len bv data rest with
          | none => none
          | some r => some (b && r)

/-- Modelled from the spec: `contains` computed by the non-short-circuiting
reference definition over all `hashCount` indices. -/
def BloomFilter.containsAll {α : Type} (self : BloomFilter α) (data : α) :
    Option Bool :=
  containsAllIndices self.hash_funcs self.vector_len self.bitvec data
    (List.range self.num_hashers)

theorem containsAllIndices_total {α : Type} {hash_funcs : List (α → ℕ)}
    {vector_len : ℕ} {bv : List Bool} (data : α) (hv : vector_len ≠ 0)
    (hbv : bv.length = vector_len) :
    ∀ {L : List ℕ}, (∀ i ∈ L, i < hash_funcs.length) →
      ∃ b, containsAllIndices hash_funcs vector_len bv data L = some b := by
  intro L
  induction L with
  | nil => intro _; exact ⟨true, rfl⟩
  | cons i rest ih =>
    intro hL
    have hi : i < hash_funcs.length := hL i (List.mem_cons_self i rest)
    obtain ⟨hasher, hg⟩ : ∃ hasher, hash_funcs.get? i = some hasher := by
      simp [List.get?_eq_getElem?, List.getElem?_eq_getElem, hi]
    have hidx : hasher data % vector_len < bv.length := by
      rw [hbv]
      exact Nat.mod_lt _ (Nat.pos_of_ne_zero hv)
    obtain ⟨b, hb⟩ : ∃ b, bv.get? (hasher data % vector_len) = some b := by
      simp [List.get?_eq_getElem?, List.getElem?_eq_getElem, hidx]
    obtain ⟨r, hr⟩ := ih (fun j hj => hL j (List.mem_cons_of_mem i hj))
    refine ⟨b && r, ?_⟩
    simp only [containsAllIndices, hg, if_neg hv, hb, hr]

theorem containsIndices_eq_containsAllIndices {α : Type}
    {hash_funcs : List (α → ℕ)} {vector_len : ℕ} {bv : List Bool} {data : α}
    (hbv : bv.length = vector_len) :
    ∀ {L : List ℕ}, (∀ i ∈ L, i < hash_funcs.length) →
      containsIndices hash_funcs vector_len bv data L =
        containsAllIndices hash_funcs vector_len bv data L := by
  intro L
  induction L with
  | nil => intro _; rfl
  | cons i rest ih =>
    intro hL
    have hi : i < hash_funcs.length := hL i (List.mem_cons_self i rest)
    obtain ⟨hasher, hg⟩ : ∃ hasher, hash_funcs.get? i = some hasher := by
      simp [List.get?_eq_getElem?, List.getElem?_eq_getElem, hi]
    by_cases hv : vector_len = 0
    · simp only [containsIndices, containsAllIndices, hg, if_pos hv]
    · have hidx : hasher data % vector_len < bv.length := by
        rw [hbv]
        exact Nat.mod_lt _ (Nat.pos_of_ne_zero hv)
      obtain ⟨b, hb⟩ : ∃ b, bv.get? (hasher data % vector_len) = some b := by
        simp [List.get?_eq_getElem?, List.getElem?_eq_getElem, hidx]
      have hrest : ∀ j ∈ rest, j < hash_funcs.length :=
        fun j hj => hL j (List.mem_cons_of_mem i hj)
      cases b with
      | false =>
        obtain ⟨r, hr⟩ := containsAllIndices_total data hv hbv hrest
        simp only [containsIndices, containsAllIndices, hg, if_neg hv, hb, hr]
        rw [if_pos (by simp)]
        simp
      | true =>
        simp only [containsIndices, containsAllIndices, hg, if_neg hv, hb]
        rw [if_neg (by simp), ih hrest]
        cases hr : containsAllIndices hash_funcs vector_len bv data rest with
        | none => rfl
        | some r => simp

theorem add_eq {α : Type} {self bf' : BloomFilter α} {data : α}
    (h : self.add data = some bf') :
    ∃ bv', addIndices self.hash_funcs self.vector_len data
        (List.range self.num_hashers) self.bitvec = some bv' ∧
      bf' = { self with bitvec := bv' } := by
  unfold BloomFilter.add at h
  cases ha : addIndices self.hash_funcs self.vector_len data
      (List.range self.num_hashers) self.bitvec with
  | none => rw [ha] at h; cases h
  | some bv' =>
    rw [ha] at h
    exact ⟨bv', rfl, (Option.some.inj h).symm⟩

theorem add_preserve {α : Type} {self bf' : BloomFilter α} {data : α}
    (h : self.add data = some bf') :
    bf'.prob_fp = self.prob_fp ∧ bf'.data_set_size = self.data_set_size ∧
      bf'.vector_len = self.vector_len ∧ bf'.num_hashers = self.num_hashers ∧
      bf'.hash_funcs = self.hash_funcs ∧
      bf'.bitvec.length = self.bitvec.length := by
  obtain ⟨bv', ha, rfl⟩ := add_eq h
  exact ⟨rfl, rfl, rfl, rfl, rfl, addIndices_length ha⟩

theorem add_mono {α : Type} {self bf' : BloomFilter α} {data : α}
    (h : self.add data = some bf') (j : ℕ)
    (hj : self.bitvec.get? j = some true) : bf'.bitvec.get? j = some true := by
  obtain ⟨bv', ha, rfl⟩ := add_eq h
  exact addIndices_mono ha j hj

theorem containsMut_snd {α : Type} (self : BloomFilter α) (data : α) :
    (self.containsMut data).2 = self :=
  containsMutIndices_snd data (List.range self.num_hashers) self

theorem containsMut_fst {α : Type} (self : BloomFilter α) (data : α) :
    (self.containsMut data).1 = self.contains data :=
  containsMutIndices_fst data (List.range self.num_hashers) self

theorem runOps_preserve {α : Type} :
    ∀ {ops : List (Op α)} {bf bf' : BloomFilter α},
      runOps ops bf = some bf' →
      bf'.prob_fp = bf.prob_fp ∧ bf'.data_set_size = bf.data_set_size ∧
        bf'.vector_len = bf.vector_len ∧ bf'.num_hashers = bf.num_hashers ∧
        bf'.hash_funcs = bf.hash_funcs ∧
        bf'.bitvec.length = bf.bitvec.length ∧
        (∀ j, bf.bitvec.get? j = some true → bf'.bitvec.get? j = some true) := by
  intro ops
  induction ops with
  | nil =>
    intro bf bf' h
    cases h
    exact ⟨rfl, rfl, rfl, rfl, rfl, rfl, fun _ hj => hj⟩
  | cons op rest ih =>
    intro bf bf' h
    cases op with
    | add d =>
      simp only [runOps] at h
      cases ha : bf.add d with
      | none => rw [ha] at h; cases h
      | some bf2 =>
        rw [ha] at h
        obtain ⟨h1, h2, h3, h4, h5, h6, h7⟩ := ih h
        obtain ⟨g1, g2, g3, g4, g5, g6⟩ := add_preserve ha
        refine ⟨by rw [h1, g1], by rw [h2, g2], by rw [h3, g3], by rw [h4, g4],
          by rw [h5, g5], by rw [h6, g6], ?_⟩
        intro j hj
        exact h7 j (add_mono ha j hj)
    | contains d =>
      simp only [runOps] at h
      cases hc : bf.containsMut d with
      | mk o bf2 =>
        rw [hc] at h
        cases o with
        | none => cases h
        | some b =>
          have hbf2 : bf2 = bf := by
            have := containsMut_snd bf d
            rw [hc] at this
            exact this
          subst hbf2
          exact ih h

/-! ## Parameter-calculator lemmas (real-valued semantics) -/

theorem log_two_pos : (0 : ℝ) < Real.log 2 :=
  Real.log_pos (by norm_num)

theorem get_optimal_num_hashes_pos {p : ℝ} (h0 : 0 < p) (h1 : p < 1) :
    1 ≤ get_optimal_num_hashes p := by
  have hlp : Real.log p < 0 := Real.log_neg h0 h1
  have harg : 0 < -(Real.log p / Real.log 2) := by
    have : Real.log p / Real.log 2 < 0 := div_neg_of_neg_of_pos hlp log_two_pos
    linarith
  have hceil : 0 < ⌈-(Real.log p / Real.log 2)⌉ := Int.ceil_pos.mpr harg
  unfold get_optimal_num_hashes
  omega

theorem get_optimal_num_hashes_eq_zero {p : ℝ} (h : 1 ≤ p) :
    get_optimal_num_hashes p = 0 := by
  have hlp : 0 ≤ Real.log p := Real.log_nonneg h
  have harg : -(Real.log p / Real.log 2) ≤ 0 := by
    have : 0 ≤ Real.log p / Real.log 2 := div_nonneg hlp (le_of_lt log_two_pos)
    linarith
  have hceil : ⌈-(Real.log p / Real.log 2)⌉ ≤ 0 :=
    Int.ceil_le.mpr (by exact_mod_cast harg)
  unfold get_optimal_num_hashes
  omega

theorem get_optimal_num_hashes_half : get_optimal_num_hashes (1 / 2) = 1 := by
  have hlog : Real.log ((1 : ℝ) / 2) = -Real.log 2 := by
    rw [show ((1 : ℝ) / 2) = 2⁻¹ by norm_num, Real.log_inv]
  have harg : -(Real.log ((1 : ℝ) / 2) / Real.log 2) = 1 := by
    rw [hlog, neg_div, neg_neg, div_self (ne_of_gt log_two_pos)]
  unfold get_optimal_num_hashes
  rw [harg]
  simp

theorem get_optimal_vector_len_pos {p : ℝ} {n : ℕ} (h0 : 0 < p) (h1 : p < 1)
    (hn : 1 ≤ n) : 1 ≤ get_optimal_vector_len p n := by
  have hlp : Real.log p < 0 := Real.log_neg h0 h1
  have hn' : (0 : ℝ) < (n : ℝ) := by exact_mod_cast Nat.lt_of_lt_of_le Nat.zero_lt_one hn
  have harg : 0 < -((n : ℝ) * Real.log p / (Real.log 2) ^ 2) := by
    have hnum : (n : ℝ) * Real.log p < 0 := mul_neg_of_pos_of_neg hn' hlp
    have hden : (0 : ℝ) < (Real.log 2) ^ 2 := by positivity
    have : (n : ℝ) * Real.log p / (Real.log 2) ^ 2 < 0 :=
      div_neg_of_neg_of_pos hnum hden
    linarith
  have hceil : 0 < ⌈-((n : ℝ) * Real.log p / (Real.log 2) ^ 2)⌉ :=
    Int.ceil_pos.mpr harg
  unfold get_optimal_vector_len
  omega

theorem get_optimal_vector_len_eq_zero {p : ℝ} (h : 1 ≤ p) (n : ℕ) :
    get_optimal_vector_len p n = 0 := by
  have hlp : 0 ≤ Real.log p := Real.log_nonneg h
  have harg : -((n : ℝ) * Real.log p / (Real.log 2) ^ 2) ≤ 0 := by
    have : 0 ≤ (n : ℝ) * Real.log p / (Real.log 2) ^ 2 := by positivity
    linarith
  have hceil : ⌈-((n : ℝ) * Real.log p / (Real.log 2) ^ 2)⌉ ≤ 0 :=
    Int.ceil_le.mpr (by exact_mod_cast harg)
  unfold get_optimal_vector_len
  omega

theorem get_optimal_vector_len_zero (p : ℝ) : get_optimal_vector_len p 0 = 0 := by
  unfold get_optimal_vector_len
  norm_num

/-! ## Facts about `new` -/

theorem new_vector_len {α : Type} (seed : ℕ → α → ℕ) (p : ℝ) (n : ℕ) :
    (BloomFilter.new seed p n).vector_len = get_optimal_vector_len p n := rfl

theorem new_num_hashers {α : Type} (seed : ℕ → α → ℕ) (p : ℝ) (n : ℕ) :
    (BloomFilter.new seed p n).num_hashers = get_optimal_num_hashes p := rfl

theorem new_bitvec {α : Type} (seed : ℕ → α → ℕ) (p : ℝ) (n : ℕ) :
    (BloomFilter.new seed p n).bitvec =
      List.replicate (get_optimal_vector_len p n) false := rfl

theorem new_hash_funcs {α : Type} (seed : ℕ → α → ℕ) (p : ℝ) (n : ℕ) :
    (BloomFilter.new seed p n).hash_funcs =
      (List.range (get_optimal_num_hashes p)).map seed := rfl

theorem new_hash_funcs_length {α : Type} (seed : ℕ → α → ℕ) (p : ℝ) (n : ℕ) :
    (BloomFilter.new seed p n).hash_funcs.length =
      (BloomFilter.new seed p n).num_hashers := by
  rw [new_hash_funcs, new_num_hashers, List.length_map, List.length_range]

theorem new_bitvec_length {α : Type} (seed : ℕ → α → ℕ) (p : ℝ) (n : ℕ) :
    (BloomFilter.new seed p n).bitvec.length =
      (BloomFilter.new seed p n).vector_len := by
  rw [new_bitvec, new_vector_len, List.length_replicate]

theorem contains_true_of_no_hashers {α : Type} (bf : BloomFilter α) (v : α)
    (h : bf.num_hashers = 0) : bf.contains v = some true := by
  unfold BloomFilter.contains
  rw [h]
  rfl

theorem add_id_of_no_hashers {α : Type} (bf : BloomFilter α) (v : α)
    (h : bf.num_hashers = 0) : bf.add v = some bf := by
  have hr : List.range bf.num_hashers = [] := by rw [h, List.range_zero]
  unfold BloomFilter.add
  rw [hr]
  rfl

theorem add_none_of_vector_len_zero {α : Type} (bf : BloomFilter α) (v : α)
    (hv : bf.vector_len = 0) (hn : 1 ≤ bf.num_hashers)
    (hh : 1 ≤ bf.hash_funcs.length) : bf.add v = none := by
  obtain ⟨k, hk⟩ : ∃ k, bf.num_hashers = k + 1 := ⟨bf.num_hashers - 1, by omega⟩
  obtain ⟨hasher, hg⟩ : ∃ hasher, bf.hash_funcs.get? 0 = some hasher := by
    cases hg : bf.hash_funcs.get? 0 with
    | none => rw [List.get?_eq_none] at hg; omega
    | some hasher => exact ⟨hasher, rfl⟩
  unfold BloomFilter.add
  rw [hk, List.range_succ_eq_map]
  simp only [addIndices, hg, if_pos hv]
  rfl

theorem contains_none_of_vector_len_zero {α : Type} (bf : BloomFilter α) (v : α)
    (hv : bf.vector_len = 0) (hn : 1 ≤ bf.num_hashers)
    (hh : 1 ≤ bf.hash_funcs.length) : bf.contains v = none := by
  obtain ⟨k, hk⟩ : ∃ k, bf.num_hashers = k + 1 := ⟨bf.num_hashers - 1, by omega⟩
  obtain ⟨hasher, hg⟩ : ∃ hasher, bf.hash_funcs.get? 0 = some hasher := by
    cases hg : bf.hash_funcs.get? 0 with
    | none => rw [List.get?_eq_none] at hg; omega
    | some hasher => exact ⟨hasher, rfl⟩
  unfold BloomFilter.contains
  rw [hk, List.range_succ_eq_map]
  simp only [containsIndices, hg, if_pos hv]

theorem contains_false_of_fresh {α : Type} (bf : BloomFilter α) (v : α)
    (hb : bf.bitvec = List.replicate bf.vector_len false)
    (hv : 1 ≤ bf.vector_len) (hn : 1 ≤ bf.num_hashers)
    (hh : 1 ≤ bf.hash_funcs.length) : bf.contains v = some false := by
  obtain ⟨k, hk⟩ : ∃ k, bf.num_hashers = k + 1 := ⟨bf.num_hashers - 1, by omega⟩
  obtain ⟨hasher, hg⟩ : ∃ hasher, bf.hash_funcs.get? 0 = some hasher := by
    cases hg : bf.hash_funcs.get? 0 with
    | none => rw [List.get?_eq_none] at hg; omega
    | some hasher => exact ⟨hasher, rfl⟩
  have hv0 : bf.vector_len ≠ 0 := by omega
  have hidx : hasher v % bf.vector_len < bf.vector_len :=
    Nat.mod_lt _ (Nat.pos_of_ne_zero hv0)
  have hcell : bf.bitvec.get? (hasher v % bf.vector_len) = some false := by
    rw [hb]
    simp [List.get?_eq_getElem?, List.getElem?_replicate, hidx]
  unfold BloomFilter.contains
  rw [hk, List.range_succ_eq_map]
  simp only [containsIndices, hg, if_neg hv0, hcell]
  rw [if_pos (by simp)]

/-! ## Concrete sample filters used to witness the theorems -/

/-- A concrete well-formed filter state: one cell, one hasher. -/
noncomputable def sampleFilter : BloomFilter ℕ :=
  { prob_fp := 0
    data_set_size := 0
    vector_len := 1
    num_hashers := 1
    bitvec := [false]
    hash_funcs := [fun _ => 0] }

/-- `sampleFilter` after its only cell has been set. -/
noncomputable def sampleFilterTrue : BloomFilter ℕ :=
  { sampleFilter with bitvec := [true] }

/-! ## Claim theorems -/

/-- C1: No false negatives: once `add v` has completed on a filter
instance, every later `contains v` on the same instance returns `true`,
regardless of how many other `add`/`contains` operations ran in between. -/
theorem no_false_negatives {α : Type} (bf bf1 bf2 : BloomFilter α) (v : α)
    (ops : List (Op α)) (h1 : bf.add v = some bf1)
    (h2 : runOps ops bf1 = some bf2) : bf2.contains v = some true := by
  obtain ⟨bv1, ha, rfl⟩ := add_eq h1
  obtain ⟨p1, p2, p3, p4, p5, p6, p7⟩ := runOps_preserve h2
  unfold BloomFilter.contains
  rw [p3, p4, p5]
  apply containsIndices_eq_true
  intro i hi
  obtain ⟨hasher, hg, hv, hlt, htrue⟩ := addIndices_sets ha i hi
  exact ⟨hasher, hg, hv, p7 _ htrue⟩

theorem no_false_negatives_witness :
    sampleFilter.add 2 = some sampleFilterTrue ∧
      runOps [] sampleFilterTrue = some sampleFilterTrue ∧
      sampleFilterTrue.contains 2 = some true :=
  ⟨rfl, rfl,
    no_false_negatives sampleFilter sampleFilterTrue sampleFilterTrue 2 [] rfl rfl⟩

/-- C2 (counterexample): `new(2.0, 100)` with `2 ∉ (0,1)` does not fail
with an `InvalidConfiguration` error: it returns a concrete filter
instance (both derived parameters saturate to `0`). -/
theorem new_accepts_invalid_counterexample :
    (BloomFilter.new (fun _ _ => 0 : ℕ → ℕ → ℕ) 2 100).num_hashers = 0 ∧
      (BloomFilter.new (fun _ _ => 0 : ℕ → ℕ → ℕ) 2 100).vector_len = 0 ∧
      (BloomFilter.new (fun _ _ => 0 : ℕ → ℕ → ℕ) 2 100).bitvec = [] ∧
      (BloomFilter.new (fun _ _ => 0 : ℕ → ℕ → ℕ) 2 100).prob_fp = 2 := by
  refine ⟨?_, ?_, ?_, rfl⟩
  · rw [new_num_hashers]
    exact get_optimal_num_hashes_eq_zero one_le_two
  · rw [new_vector_len]
    exact get_optimal_vector_len_eq_zero one_le_two 100
  · rw [new_bitvec, get_optimal_vector_len_eq_zero one_le_two 100]
    rfl

/-- C2 (amended): the constructor performs no validation and never fails:
for every `p ≥ 1` (so in particular outside `(0,1)`) and every `n`,
`new(p, n)` still returns a filter instance — with both derived parameters
saturated to `0` and an empty bit vector — instead of raising
`InvalidConfiguration`. -/
theorem new_accepts_invalid {α : Type} (seed : ℕ → α → ℕ) (p : ℝ) (n : ℕ)
    (hp : 1 ≤ p) :
    (BloomFilter.new seed p n).num_hashers = 0 ∧
      (BloomFilter.new seed p n).vector_len = 0 ∧
      (BloomFilter.new seed p n).bitvec = [] ∧
      (BloomFilter.new seed p n).prob_fp = p ∧
      (BloomFilter.new seed p n).data_set_size = n := by
  refine ⟨?_, ?_, ?_, rfl, rfl⟩
  · rw [new_num_hashers]
    exact get_optimal_num_hashes_eq_zero hp
  · rw [new_vector_len]
    exact get_optimal_vector_len_eq_zero hp n
  · rw [new_bitvec, get_optimal_vector_len_eq_zero hp n]
    rfl

theorem new_accepts_invalid_witness :
    (1 : ℝ) ≤ 2 ∧
      ((BloomFilter.new (fun _ _ => 0 : ℕ → ℕ → ℕ) 2 100).num_hashers = 0 ∧
        (BloomFilter.new (fun _ _ => 0 : ℕ → ℕ → ℕ) 2 100).vector_len = 0 ∧
        (BloomFilter.new (fun _ _ => 0 : ℕ → ℕ → ℕ) 2 100).bitvec = [] ∧
        (BloomFilter.new (fun _ _ => 0 : ℕ → ℕ → ℕ) 2 100).prob_fp = 2 ∧
        (BloomFilter.new (fun _ _ => 0 : ℕ → ℕ → ℕ) 2 100).data_set_size = 100) :=
  ⟨one_le_two, new_accepts_invalid (fun _ _ => 0) 2 100 one_le_two⟩

/-- C3 (code bug): for `p = 1/2 ∈ (0,1)` and `n = 0` the derived bit-vector
length is `0` — the formula value is not clamped to `1` — and on the
resulting filter `add` then panics with a modulo-by-zero. -/
theorem vector_len_not_clamped :
    get_optimal_vector_len (1 / 2) 0 = 0 ∧
      (BloomFilter.new (fun _ _ => 0 : ℕ → ℕ → ℕ) (1 / 2) 0).add 3 = none := by
  have hvl : (BloomFilter.new (fun _ _ => 0 : ℕ → ℕ → ℕ) (1 / 2) 0).vector_len = 0 := by
    rw [new_vector_len]
    exact get_optimal_vector_len_zero _
  have hnum : (BloomFilter.new (fun _ _ => 0 : ℕ → ℕ → ℕ) (1 / 2) 0).num_hashers = 1 := by
    rw [new_num_hashers]
    exact get_optimal_num_hashes_half
  have hlen : (BloomFilter.new (fun _ _ => 0 : ℕ → ℕ → ℕ) (1 / 2) 0).hash_funcs.length = 1 := by
    rw [new_hash_funcs_length, hnum]
  exact ⟨get_optimal_vector_len_zero _,
    add_none_of_vector_len_zero _ _ hvl (by omega) (by omega)⟩

/-- C4 (counterexample): on the construction `new(0.5, 0)` — which the spec
deems valid, `0.5 ∈ (0,1)` — both `add` and `contains` panic with a
modulo-by-zero instead of completing, because the bit-vector length is
`0`. -/
theorem add_contains_panic_counterexample :
    (0 : ℝ) < 1 / 2 ∧ (1 / 2 : ℝ) < 1 ∧
      (BloomFilter.new (fun _ _ => 0 : ℕ → ℕ → ℕ) (1 / 2) 0).add 5 = none ∧
      (BloomFilter.new (fun _ _ => 0 : ℕ → ℕ → ℕ) (1 / 2) 0).contains 5 = none := by
  have hvl : (BloomFilter.new (fun _ _ => 0 : ℕ → ℕ → ℕ) (1 / 2) 0).vector_len = 0 := by
    rw [new_vector_len]
    exact get_optimal_vector_len_zero _
  have hnum : (BloomFilter.new (fun _ _ => 0 : ℕ → ℕ → ℕ) (1 / 2) 0).num_hashers = 1 := by
    rw [new_num_hashers]
    exact get_optimal_num_hashes_half
  have hlen : (BloomFilter.new (fun _ _ => 0 : ℕ → ℕ → ℕ) (1 / 2) 0).hash_funcs.length = 1 := by
    rw [new_hash_funcs_length, hnum]
  exact ⟨one_half_pos, one_half_lt_one,
    add_none_of_vector_len_zero _ _ hvl (by omega) (by omega),
    contains_none_of_vector_len_zero _ _ hvl (by omega) (by omega)⟩

/-- C4 (amended): for every filter constructed with `p ∈ (0,1)` and
`n ≥ 1` and every input value, `add` and `contains` complete without
failure, the bit-vector length is at least `1`, and every bit index
`digest % vector_len` lies in `[0, vector_len)`. -/
theorem add_contains_total {α : Type} (seed : ℕ → α → ℕ) (p : ℝ) (n : ℕ)
    (v : α) (h0 : 0 < p) (h1 : p < 1) (hn : 1 ≤ n) :
    1 ≤ (BloomFilter.new seed p n).vector_len ∧
      (∀ digest : ℕ, digest % (BloomFilter.new seed p n).vector_len <
        (BloomFilter.new seed p n).vector_len) ∧
      (∃ bf', (BloomFilter.new seed p n).add v = some bf') ∧
      (∃ b, (BloomFilter.new seed p n).contains v = some b) := by
  have hv : 1 ≤ (BloomFilter.new seed p n).vector_len := by
    rw [new_vector_len]
    exact get_optimal_vector_len_pos h0 h1 hn
  have hv0 : (BloomFilter.new seed p n).vector_len ≠ 0 := by omega
  have hbl : (BloomFilter.new seed p n).bitvec.length =
      (BloomFilter.new seed p n).vector_len := new_bitvec_length seed p n
  have hrange : ∀ i ∈ List.range (BloomFilter.new seed p n).num_hashers,
      i < (BloomFilter.new seed p n).hash_funcs.length := by
    intro i hi
    rw [new_hash_funcs_length]
    exact List.mem_range.mp hi
  refine ⟨hv, fun digest => Nat.mod_lt _ (by omega), ?_, ?_⟩
  · obtain ⟨bv', hbv'⟩ := addIndices_total v hv0 (BloomFilter.new seed p n).bitvec hbl hrange
    refine ⟨{ BloomFilter.new seed p n with bitvec := bv' }, ?_⟩
    unfold BloomFilter.add
    rw [hbv']
    rfl
  · obtain ⟨b, hb⟩ := containsIndices_total v hv0 hbl hrange
    exact ⟨b, hb⟩

theorem add_contains_total_witness :
    (0 : ℝ) < 1 / 2 ∧ (1 / 2 : ℝ) < 1 ∧ 1 ≤ 1 ∧
      (1 ≤ (BloomFilter.new (fun _ _ => 0 : ℕ → ℕ → ℕ) (1 / 2) 1).vector_len ∧
        (∀ digest : ℕ,
          digest % (BloomFilter.new (fun _ _ => 0 : ℕ → ℕ → ℕ) (1 / 2) 1).vector_len <
            (BloomFilter.new (fun _ _ => 0 : ℕ → ℕ → ℕ) (1 / 2) 1).vector_len) ∧
        (∃ bf', (BloomFilter.new (fun _ _ => 0 : ℕ → ℕ → ℕ) (1 / 2) 1).add 7 = some bf') ∧
        (∃ b, (BloomFilter.new (fun _ _ => 0 : ℕ → ℕ → ℕ) (1 / 2) 1).contains 7 = some b)) :=
  ⟨one_half_pos, one_half_lt_one, le_refl 1,
    add_contains_total (fun _ _ => 0) (1 / 2) 1 7 one_half_pos one_half_lt_one
      (le_refl 1)⟩

/-- C5: Monotonicity of the bit vector: once a cell holds `true`, no
sequence of further `add`/`contains` operations makes it `false`. -/
theorem bitvec_monotone {α : Type} (ops : List (Op α)) (bf bf' : BloomFilter α)
    (j : ℕ) (h : runOps ops bf = some bf')
    (hj : bf.bitvec.get? j = some true) : bf'.bitvec.get? j = some true :=
  (runOps_preserve h).2.2.2.2.2.2 j hj

theorem bitvec_monotone_witness :
    runOps [Op.add 2] sampleFilterTrue = some sampleFilterTrue ∧
      sampleFilterTrue.bitvec.get? 0 = some true ∧
      sampleFilterTrue.bitvec.get? 0 = some true :=
  ⟨rfl, rfl, bitvec_monotone [Op.add 2] sampleFilterTrue sampleFilterTrue 0 rfl rfl⟩

/-- C6: Parameter formulas: for `p ∈ (0,1)` the derived hash count equals
`ceil(-log2 p)` and the derived bit-vector length equals
`ceil(-(n * ln p) / (ln 2)^2)`; in particular
`get_optimal_num_hashes(0.5) = 1`. -/
theorem parameter_formulas {p : ℝ} (h0 : 0 < p) (h1 : p < 1) :
    ((get_optimal_num_hashes p : ℤ) = ⌈-Real.logb 2 p⌉ ∧
      ∀ n : ℕ, (get_optimal_vector_len p n : ℤ) =
        ⌈-((n : ℝ) * Real.log p) / (Real.log 2) ^ 2⌉) ∧
    get_optimal_num_hashes (1 / 2) = 1 := by
  refine ⟨⟨?_, ?_⟩, get_optimal_num_hashes_half⟩
  · have hlp : Real.log p < 0 := Real.log_neg h0 h1
    have harg : 0 < -(Real.log p / Real.log 2) := by
      have : Real.log p / Real.log 2 < 0 := div_neg_of_neg_of_pos hlp log_two_pos
      linarith
    have hceil : 0 ≤ ⌈-(Real.log p / Real.log 2)⌉ :=
      le_of_lt (Int.ceil_pos.mpr harg)
    unfold get_optimal_num_hashes
    rw [Int.toNat_of_nonneg hceil]
    simp only [Real.logb]
  · intro n
    have hlp : Real.log p < 0 := Real.log_neg h0 h1
    have harg : 0 ≤ -((n : ℝ) * Real.log p / (Real.log 2) ^ 2) := by
      have hnum : (n : ℝ) * Real.log p ≤ 0 :=
        mul_nonpos_of_nonneg_of_nonpos (Nat.cast_nonneg n) (le_of_lt hlp)
      have hden : (0 : ℝ) < (Real.log 2) ^ 2 := by positivity
      have : (n : ℝ) * Real.log p / (Real.log 2) ^ 2 ≤ 0 :=
        div_nonpos_of_nonpos_of_nonneg hnum (le_of_lt hden)
      linarith
    have hceil : 0 ≤ ⌈-((n : ℝ) * Real.log p / (Real.log 2) ^ 2)⌉ :=
      Int.ceil_nonneg harg
    unfold get_optimal_vector_len
    rw [Int.toNat_of_nonneg hceil, neg_div]

theorem parameter_formulas_witness :
    (0 : ℝ) < 1 / 2 ∧ (1 / 2 : ℝ) < 1 ∧
      (((get_optimal_num_hashes (1 / 2) : ℤ) = ⌈-Real.logb 2 ((1 : ℝ) / 2)⌉ ∧
        ∀ n : ℕ, (get_optimal_vector_len (1 / 2) n : ℤ) =
          ⌈-((n : ℝ) * Real.log (1 / 2)) / (Real.log 2) ^ 2⌉) ∧
      get_optimal_num_hashes (1 / 2) = 1) :=
  ⟨one_half_pos, one_half_lt_one, parameter_formulas one_half_pos one_half_lt_one⟩

/-- C7 (counterexample): the freshly constructed filter `new(2.0, 100)` —
on which `add` was never called — answers `contains 7 = true`, not
`false`: the claim fails for it. -/
theorem fresh_contains_counterexample :
    (BloomFilter.new (fun _ _ => 0 : ℕ → ℕ → ℕ) 2 100).contains 7 = some true := by
  apply contains_true_of_no_hashers
  rw [new_num_hashers]
  exact get_optimal_num_hashes_eq_zero one_le_two

/-- C7 (amended): for every freshly constructed filter with
`p ∈ (0,1)` and `n ≥ 1` (nonempty bit vector, at least one hasher) on
which `add` has never been called, `contains v` returns `false` for every
value `v`, deterministically. -/
theorem fresh_contains_false {α : Type} (seed : ℕ → α → ℕ) (p : ℝ) (n : ℕ)
    (v : α) (h0 : 0 < p) (h1 : p < 1) (hn : 1 ≤ n) :
    (BloomFilter.new seed p n).contains v = some false := by
  apply contains_false_of_fresh
  · rw [new_bitvec, new_vector_len]
  · rw [new_vector_len]
    exact get_optimal_vector_len_pos h0 h1 hn
  · rw [new_num_hashers]
    exact get_optimal_num_hashes_pos h0 h1
  · rw [new_hash_funcs_length, new_num_hashers]
    exact get_optimal_num_hashes_pos h0 h1

theorem fresh_contains_false_witness :
    (0 : ℝ) < 1 / 2 ∧ (1 / 2 : ℝ) < 1 ∧ 1 ≤ 1 ∧
      (BloomFilter.new (fun _ _ => 0 : ℕ → ℕ → ℕ) (1 / 2) 1).contains 3 = some false :=
  ⟨one_half_pos, one_half_lt_one, le_refl 1,
    fresh_contains_false (fun _ _ => 0) (1 / 2) 1 3 one_half_pos one_half_lt_one
      (le_refl 1)⟩

/-- C8: `contains` is a pure read: threading the `&mut self` state through
the call returns every field of the filter unchanged, the answer is the
pure function `contains` of the state, and hence an immediately repeated
`contains` with no intervening `add` returns the same result. -/
theorem contains_pure {α : Type} (bf : BloomFilter α) (v : α) :
    (bf.containsMut v).2 = bf ∧ (bf.containsMut v).1 = bf.contains v ∧
      ((bf.containsMut v).2).containsMut v = bf.containsMut v := by
  refine ⟨containsMut_snd bf v, containsMut_fst bf v, ?_⟩
  rw [containsMut_snd bf v]

/-- C9: Short-circuit equivalence: on every filter state whose stored
lengths agree with its fields (as all constructed filters do), the
short-circuiting `contains` returns exactly the same answer as the
non-short-circuiting reference definition that tests all `hashCount`
indices and conjoins the cell values. -/
theorem contains_short_circuit_equiv {α : Type} (bf : BloomFilter α) (v : α)
    (hh : bf.hash_funcs.length = bf.num_hashers)
    (hb : bf.bitvec.length = bf.vector_len) :
    bf.contains v = bf.containsAll v := by
  unfold BloomFilter.contains BloomFilter.containsAll
  apply containsIndices_eq_containsAllIndices hb
  intro i hi
  rw [hh]
  exact List.mem_range.mp hi

theorem contains_short_circuit_equiv_witness :
    sampleFilter.hash_funcs.length = sampleFilter.num_hashers ∧
      sampleFilter.bitvec.length = sampleFilter.vector_len ∧
      sampleFilter.contains 3 = sampleFilter.containsAll 3 :=
  ⟨rfl, rfl, contains_short_circuit_equiv sampleFilter 3 rfl rfl⟩

/-- C10: Zero-hasher degenerate behaviour: for `prob_fp ≥ 1`,
`get_optimal_num_hashes` yields `0`; on the resulting filter `contains`
returns `true` for every value — though nothing was ever added — and `add`
is a no-op on the bit vector (it returns the filter unchanged). -/
theorem degenerate_no_hashers {α : Type} (seed : ℕ → α → ℕ) (p : ℝ) (n : ℕ)
    (v : α) (hp : 1 ≤ p) :
    get_optimal_num_hashes p = 0 ∧
      (BloomFilter.new seed p n).contains v = some true ∧
      (BloomFilter.new seed p n).add v = some (BloomFilter.new seed p n) := by
  have h0 : (BloomFilter.new seed p n).num_hashers = 0 := by
    rw [new_num_hashers]
    exact get_optimal_num_hashes_eq_zero hp
  exact ⟨get_optimal_num_hashes_eq_zero hp,
    contains_true_of_no_hashers _ v h0, add_id_of_no_hashers _ v h0⟩

theorem degenerate_no_hashers_witness :
    (1 : ℝ) ≤ 2 ∧
      (get_optimal_num_hashes 2 = 0 ∧
        (BloomFilter.new (fun _ _ => 0 : ℕ → ℕ → ℕ) 2 100).contains 4 = some true ∧
        (BloomFilter.new (fun _ _ => 0 : ℕ → ℕ → ℕ) 2 100).add 4 =
          some (BloomFilter.new (fun _ _ => 0 : ℕ → ℕ → ℕ) 2 100)) :=
  ⟨one_le_two, degenerate_no_hashers (fun _ _ => 0) 2 100 4 one_le_two⟩

end BloomRs
